import Mathlib

/-!
Verification of the local-module dependency resolver of
`concatenate_python_files.py`.

Shallow embedding conventions:
- An absolute filesystem path is a list of components (`AbsPath`); the root
  directory is `[]`.  `os.path.dirname` drops the last component,
  `os.path.join` appends components, and the string form of a path joins
  the components with a slash, as the OS does.
- The filesystem is a record `FS` of pure functions: `isfile` answers
  `os.path.isfile`, `real` answers `os.path.realpath`, `parseFile` answers
  the combined `open` + `ast.parse` step of the walker (`none` models any
  of IOError, SyntaxError, UnicodeDecodeError), and `readFile` answers the
  emitter's `open().read()` (`Except.error e` models an IOError carrying
  message `e`).
- Python's `str.split('.')` is modelled by the structurally recursive
  `splitOnChar '.'` (note `"".split('.') == ['']`), and string comparison
  by code-point lexicographic `strLe`, exactly CPython's `str` ordering.
- The Python `set` of dependencies is modelled by a duplicate-free list;
  `sorted` is modelled by the stable `List.insertionSort`, which agrees
  with any stable sort on a total preorder key.
-/

set_option maxHeartbeats 1000000

abbrev AbsPath := List String

/-- Statements of a parsed source file, as far as the visitor can observe
them: plain `import a, b`, `from m import n1, n2` with a relative level,
and any other statement, which may carry a nested body of statements
(function bodies, class bodies, conditional branches).  `ast.NodeVisitor`'s
`generic_visit` descends into the nested bodies. -/
inductive Stmt where
  | imp (names : List String)
  | impFrom (module : Option String) (names : List String) (level : Nat)
  | other (body : List Stmt)

/-- The ambient filesystem, as a record of the pure observations the
script makes of it. -/
structure FS where
  isfile : AbsPath → Bool
  real : AbsPath → AbsPath
  parseFile : AbsPath → Option (List Stmt)
  readFile : AbsPath → Except String String

/-- `os.path.dirname` on an absolute path: drop the last component
(`dirname "/" == "/"`). -/
def dirname (p : AbsPath) : AbsPath := p.dropLast

/-- Model of Python's `str.split(sep)` for a one-character separator,
accumulator of the current piece in reverse. -/
def splitAux (sep : Char) : List Char → List Char → List String
  | [], acc => [String.mk acc.reverse]
  | c :: rest, acc =>
    if c = sep then String.mk acc.reverse :: splitAux sep rest []
    else splitAux sep rest (c :: acc)

/-- Python's `str.split(sep)`; in particular `"".split('.') == ['']`. -/
def splitOnChar (sep : Char) (s : String) : List String :=
  splitAux sep s.toList []

/-- Code-point lexicographic comparison of character lists. -/
def charListLe : List Char → List Char → Bool
  | [], _ => true
  | _ :: _, [] => false
  | a :: as, b :: bs =>
    if a.toNat < b.toNat then true
    else if b.toNat < a.toNat then false
    else charListLe as bs

/-- Python's `<=` on strings (code-point lexicographic). -/
def strLe (a b : String) : Bool := charListLe a.toList b.toList

/-- The string form of an absolute path, components joined by slashes. -/
def pathStr (p : AbsPath) : String := "/" ++ String.intercalate "/" p

/-- `base_path` walked upward `n` times by `os.path.dirname`, the loop
`for _ in range(level - 1): base_path = os.path.dirname(base_path)`. -/
def iterDirname (p : AbsPath) : Nat → AbsPath
  | 0 => p
  | n + 1 => iterDirname (dirname p) n

/-- `os.path.join(base, *parts) + ext` at component level: the extension
string is appended to the last part (an empty last part, as produced by
`"".split('.')`, yields a component that is just the extension, matching
`os.path.join(base, "") + ".py" == base + "/.py"`); empty intermediate
parts contribute no component, as in `os.path.join`. -/
def joinExt (base : List String) (parts : List String) (ext : String) : List String :=
  match parts.getLast? with
  | none =>
    match base.getLast? with
    | none => [ext]
    | some b => base.dropLast ++ [b ++ ext]
  | some last => base ++ (parts.dropLast.filter (fun s => s != "")) ++ [last ++ ext]

/-- `os.path.join(base, *parts)` at component level (empty parts
contribute no component). -/
def joinAll (base : List String) (parts : List String) : List String :=
  base ++ parts.filter (fun s => s != "")

/-- `is_local_module`: `os.path.commonpath([realpath(folder), realpath(p)])
== realpath(folder)`, i.e. the canonical folder is a component-wise prefix
of the canonical module path. -/
def is_local_module (fs : FS) (module_path : AbsPath) (search_folder : AbsPath) : Bool :=
  (fs.real search_folder).isPrefixOf (fs.real module_path)

/-- `resolve_import_path`: resolve an import name into a potential file or
package path, or `none`. -/
def resolve_import_path (fs : FS) (module_name : String) (current_file_dir : AbsPath)
    (search_folder : AbsPath) (level : Nat) : Option AbsPath :=
  let base_path := if level > 0 then iterDirname current_file_dir (level - 1) else search_folder
  let rel_path_parts := splitOnChar '.' module_name
  let potential_path_py := joinExt base_path rel_path_parts ".py"
  if fs.isfile potential_path_py && is_local_module fs potential_path_py search_folder then
    some (fs.real potential_path_py)
  else
    let potential_path_pkg := joinAll base_path (rel_path_parts ++ ["__init__.py"])
    if fs.isfile potential_path_pkg && is_local_module fs potential_path_pkg search_folder then
      some (fs.real potential_path_pkg)
    else
      none

/-- `ImportVisitor.visit_Import`: each alias name is resolved as an
absolute module name (level 0); the resolved hits are collected. -/
def visit_Import (fs : FS) (current_file_dir search_folder : AbsPath)
    (names : List String) : List AbsPath :=
  names.filterMap (fun name => resolve_import_path fs name current_file_dir search_folder 0)

/-- `ImportVisitor.visit_ImportFrom`: for each alias the dotted
`base.name` (or bare `name` when the base is empty) is resolved at the
statement's level, and afterwards the base module itself is resolved — but
only when the base module name is non-empty (`if module_base_name:`). -/
def visit_ImportFrom (fs : FS) (current_file_dir search_folder : AbsPath)
    (module : Option String) (names : List String) (level : Nat) : List AbsPath :=
  let module_base_name := module.getD ""
  (names.filterMap (fun a =>
    let full_module_name := if module_base_name != "" then module_base_name ++ "." ++ a else a
    resolve_import_path fs full_module_name current_file_dir search_folder level))
  ++ (if module_base_name != "" then
        (resolve_import_path fs module_base_name current_file_dir search_folder level).toList
      else [])

mutual

/-- Dependencies contributed by one statement: the visitor dispatches on
the statement kind and `generic_visit` descends into nested bodies. -/
def visitStmt (fs : FS) (current_file_dir search_folder : AbsPath) : Stmt → List AbsPath
  | Stmt.imp names => visit_Import fs current_file_dir search_folder names
  | Stmt.impFrom m names level => visit_ImportFrom fs current_file_dir search_folder m names level
  | Stmt.other body => visitStmts fs current_file_dir search_folder body

/-- Dependencies contributed by a list of statements, in order. -/
def visitStmts (fs : FS) (current_file_dir search_folder : AbsPath) : List Stmt → List AbsPath
  | [] => []
  | s :: rest =>
      visitStmt fs current_file_dir search_folder s
        ++ visitStmts fs current_file_dir search_folder rest

end

/-- The result of `find_all_dependencies`, instrumented with the list of
files that were actually popped and parsed (`processed`) and the files for
which a warning was printed to standard error (`warnings`). -/
structure WalkResult where
  found : List AbsPath
  processed : List AbsPath
  warnings : List AbsPath
deriving DecidableEq

/-- One dequeue step's bookkeeping: `new_dependencies = visitor.dependencies
- all_found_dependencies`; each genuinely new dependency is added to the
found set and, when it is a regular file, appended to the queue.  Returns
the grown found list and the newly enqueued entries. -/
def processDeps (fs : FS) : List AbsPath → List AbsPath → List AbsPath × List AbsPath
  | [], found => (found, [])
  | dep :: rest, found =>
    if dep ∈ found then processDeps fs rest found
    else
      let r := processDeps fs rest (found ++ [dep])
      (r.1, if fs.isfile dep then dep :: r.2 else r.2)

/-- The worklist loop of `find_all_dependencies`, with explicit fuel (the
loop in the source is bounded only by the filesystem, see the termination
theorem below).  `none` means the fuel ran out before the queue emptied. -/
def walkAux (fs : FS) (search_folder : AbsPath) :
    Nat → List AbsPath → List AbsPath → List AbsPath → List AbsPath → Option WalkResult
  | 0, _, _, _, _ => none
  | _ + 1, found, [], processed, warns => some ⟨found, processed, warns⟩
  | fuel + 1, found, current_file :: rest, processed, warns =>
    match fs.parseFile current_file with
    | none =>
      walkAux fs search_folder fuel found rest (processed ++ [current_file])
        (warns ++ [current_file])
    | some tree =>
      let deps := visitStmts fs (dirname current_file) search_folder tree
      let r := processDeps fs deps found
      walkAux fs search_folder fuel r.1 (rest ++ r.2) (processed ++ [current_file]) warns

/-- `find_all_dependencies(start_scripts, search_folder)`: seed the found
set and the FIFO queue with the canonicalized entry scripts and run the
worklist loop. -/
def find_all_dependencies (fs : FS) (start_scripts : List AbsPath) (search_folder : AbsPath)
    (fuel : Nat) : Option WalkResult :=
  let initial_paths := (start_scripts.map fs.real).dedup
  walkAux fs search_folder fuel initial_paths initial_paths [] []

/-- The sort key comparison of `main`: `key=lambda x: (x not in
initial_script_paths, x)` compared as Python tuples (Bool then string). -/
def sortKeyLe (init : List AbsPath) (x y : AbsPath) : Bool :=
  let kx := !(init.contains x)
  let ky := !(init.contains y)
  (kx == ky && strLe (pathStr x) (pathStr y)) || (!kx && ky)

/-- The sort key comparison as a relation. -/
abbrev sortRel (init : List AbsPath) (x y : AbsPath) : Prop := sortKeyLe init x y = true

instance sortRelDecidable (init : List AbsPath) : DecidableRel (sortRel init) :=
  fun x y => instDecidableEqBool (sortKeyLe init x y) true

/-- `sorted(list(all_files), key=...)` of `main`, as a stable sort. -/
def sortedDeps (init : List AbsPath) (files : List AbsPath) : List AbsPath :=
  List.insertionSort (sortRel init) files

/-- The ordered output list computed by `main`: run the dependency walk on
the raw scripts, then sort with entry scripts (by canonical path) keyed
first. -/
def mainOutput (fs : FS) (folder : AbsPath) (python_scripts : List AbsPath)
    (fuel : Nat) : Option (List AbsPath) :=
  let initial_script_paths := (python_scripts.map fs.real).dedup
  match find_all_dependencies fs python_scripts folder fuel with
  | none => none
  | some res => some (sortedDeps initial_script_paths res.found)

/-- The delimiter `"=" * 80`. -/
def headerLine : String := String.mk (List.replicate 80 '=')

/-- Length of the common component prefix of two paths. -/
def commonLen : AbsPath → AbsPath → Nat
  | a :: as, b :: bs => if a = b then commonLen as bs + 1 else 0
  | _, _ => 0

/-- `os.path.relpath(p, start)` at component level: ascend out of the
non-shared part of `start`, then descend into the non-shared part of `p`. -/
def relPathParts (p start : AbsPath) : List String :=
  List.replicate (start.length - commonLen p start) ".." ++ p.drop (commonLen p start)

/-- `os.path.relpath(p, start)` as a string (`"."` when the paths are
equal). -/
def relpathStr (p start : AbsPath) : String :=
  let parts := relPathParts p start
  if parts = [] then "." else String.intercalate "/" parts

/-- One file's section of the artifact: delimiter, `cat` label line,
delimiter, then the file's content and a blank separator — or the inline
error marker when reading the file fails. -/
def fileSection (fs : FS) (search_folder : AbsPath) (file_path : AbsPath) : String :=
  let relative_path := relpathStr file_path search_folder
  headerLine ++ "\ncat " ++ relative_path ++ "\n" ++ headerLine ++ "\n" ++
    match fs.readFile file_path with
    | Except.ok content => content ++ "\n\n"
    | Except.error e =>
        "!!! ERROR: Could not read file " ++ relative_path ++ ": " ++ e ++ " !!!\n\n"

/-- `create_concatenated_file`: the start banner followed by each listed
file's section, accumulated in order. -/
def create_concatenated_file (fs : FS) (file_list : List AbsPath) (search_folder : AbsPath)
    (output_filename : String) : String :=
  file_list.foldl (fun out file_path => out ++ fileSection fs search_folder file_path)
    ("--- START OF FILE " ++ output_filename ++ " ---\n\n")

/-- The declarations (module name, relative level) that `visit_Import`
passes to the resolver. -/
def importDecls (names : List String) : List (String × Nat) :=
  names.map (fun n => (n, 0))

/-- The declarations that `visit_ImportFrom` passes to the resolver: one
per alias (full dotted name) and one for the base module when the base
module name is non-empty. -/
def importFromDecls (module : Option String) (names : List String) (level : Nat) :
    List (String × Nat) :=
  let base := module.getD ""
  (names.map (fun a => (if base != "" then base ++ "." ++ a else a, level)))
    ++ (if base != "" then [(base, level)] else [])

/-- The declarations claimed by the specification for a from-import: as
`importFromDecls`, but with the base-module declaration emitted even when
the base module name is empty. -/
def importFromDeclsClaimed (module : Option String) (names : List String) (level : Nat) :
    List (String × Nat) :=
  let base := module.getD ""
  (names.map (fun a => (if base != "" then base ++ "." ++ a else a, level)))
    ++ [(base, level)]

mutual

/-- All declarations one statement passes to the resolver, nested bodies
included. -/
def stmtDecls : Stmt → List (String × Nat)
  | Stmt.imp names => importDecls names
  | Stmt.impFrom m names level => importFromDecls m names level
  | Stmt.other body => stmtsDecls body

/-- All declarations a statement list passes to the resolver. -/
def stmtsDecls : List Stmt → List (String × Nat)
  | [] => []
  | s :: rest => stmtDecls s ++ stmtsDecls rest

end

/-- The resolver written to the words of the specification, section 4.2:
compute the base directory, build the file candidate and the package
candidate, return the canonical form of the first candidate that is a
regular file whose canonical form lies under the canonical project root,
and `none` (NotFound) otherwise. -/
def resolveSpec (fs : FS) (module_name : String) (current_file_dir : AbsPath)
    (search_folder : AbsPath) (level : Nat) : Option AbsPath :=
  let base := if level = 0 then search_folder else iterDirname current_file_dir (level - 1)
  let segs := splitOnChar '.' module_name
  let candidates := [joinExt base segs ".py", joinAll base (segs ++ ["__init__.py"])]
  (candidates.find? (fun c => fs.isfile c && (fs.real search_folder).isPrefixOf (fs.real c))).map
    fs.real

/-- A statement `s` occurs, at any nesting depth, among `stmts`. -/
inductive NestedIn : Stmt → List Stmt → Prop where
  | here {s : Stmt} {stmts : List Stmt} : s ∈ stmts → NestedIn s stmts
  | deeper {s : Stmt} {body : List Stmt} {stmts : List Stmt} :
      NestedIn s body → Stmt.other body ∈ stmts → NestedIn s stmts

/-! ### Properties of one dequeue step -/

/-- `processDeps` grows the found list by a duplicate-free block `extra` of
genuinely new dependencies and enqueues exactly the regular files of that
block. -/
theorem processDeps_spec (fs : FS) (deps : List AbsPath) (found : List AbsPath) :
    ∃ extra : List AbsPath,
      processDeps fs deps found = (found ++ extra, extra.filter fs.isfile) ∧
      extra.Nodup ∧ ∀ p ∈ extra, p ∉ found ∧ p ∈ deps := by
  induction deps generalizing found with
  | nil => exact ⟨[], by simp [processDeps], by simp, by simp⟩
  | cons dep rest ih =>
    by_cases h : dep ∈ found
    · obtain ⟨extra, h1, h2, h3⟩ := ih found
      refine ⟨extra, by simp [processDeps, h, h1], h2, ?_⟩
      intro p hp
      exact ⟨(h3 p hp).1, List.mem_cons_of_mem _ (h3 p hp).2⟩
    · obtain ⟨extra, h1, h2, h3⟩ := ih (found ++ [dep])
      have hdep : dep ∉ extra := fun hmem =>
        (h3 dep hmem).1 (List.mem_append_right _ (List.mem_singleton.mpr rfl))
      refine ⟨dep :: extra, ?_, ?_, ?_⟩
      · simp only [processDeps, if_neg h, h1, List.filter_cons]
        cases hf : fs.isfile dep <;> simp [List.append_assoc]
      · exact List.nodup_cons.mpr ⟨hdep, h2⟩
      · intro p hp
        rcases List.mem_cons.mp hp with hp | hp
        · subst hp; exact ⟨h, List.mem_cons_self _ _⟩
        · have := h3 p hp
          refine ⟨fun hc => this.1 (List.mem_append_left _ hc), List.mem_cons_of_mem _ this.2⟩

/-! ### Invariants of the worklist loop -/

/-- Monotonicity of the loop state: the found set, the processed list and
the warning list only grow, and every queued entry is eventually
processed. -/
theorem walkAux_mono (fs : FS) (sf : AbsPath) :
    ∀ (fuel : Nat) (found queue processed warns : List AbsPath) (res : WalkResult),
      walkAux fs sf fuel found queue processed warns = some res →
      (∀ p ∈ found, p ∈ res.found) ∧ (∀ p ∈ processed, p ∈ res.processed) ∧
      (∀ p ∈ warns, p ∈ res.warnings) ∧ (∀ p ∈ queue, p ∈ res.processed) := by
  intro fuel
  induction fuel with
  | zero => intro found queue processed warns res h; exact absurd h (by simp [walkAux])
  | succ fuel ih =>
    intro found queue processed warns res h
    cases queue with
    | nil =>
      have hres : res = ⟨found, processed, warns⟩ := by
        simpa [walkAux] using h.symm
      subst hres
      exact ⟨fun p hp => hp, fun p hp => hp, fun p hp => hp, by simp⟩
    | cons cur rest =>
      cases hparse : fs.parseFile cur with
      | none =>
        rw [walkAux, hparse] at h
        obtain ⟨h1, h2, h3, h4⟩ := ih _ _ _ _ _ h
        refine ⟨h1, fun p hp => h2 p (List.mem_append_left _ hp), fun p hp => h3 p (List.mem_append_left _ hp), ?_⟩
        intro p hp
        rcases List.mem_cons.mp hp with hp | hp
        · exact h2 p (by simp [hp])
        · exact h4 p hp
      | some tree =>
        rw [walkAux, hparse] at h
        dsimp only at h
        obtain ⟨extra, heq, -, -⟩ :=
          processDeps_spec fs (visitStmts fs (dirname cur) sf tree) found
        rw [heq] at h
        dsimp only at h
        obtain ⟨h1, h2, h3, h4⟩ := ih _ _ _ _ _ h
        refine ⟨fun p hp => h1 p (List.mem_append_left _ hp),
          fun p hp => h2 p (List.mem_append_left _ hp), h3, ?_⟩
        intro p hp
        rcases List.mem_cons.mp hp with hp | hp
        · exact h2 p (by simp [hp])
        · exact h4 p (List.mem_append_left _ hp)

/-- Every path in the final found set either was there initially or was
produced by the visitor on some successfully parsed file. -/
theorem walkAux_found_pred (fs : FS) (sf : AbsPath) (Q : AbsPath → Prop)
    (hdeps : ∀ cur tree, fs.parseFile cur = some tree →
      ∀ p ∈ visitStmts fs (dirname cur) sf tree, Q p) :
    ∀ (fuel : Nat) (found queue processed warns : List AbsPath) (res : WalkResult),
      walkAux fs sf fuel found queue processed warns = some res →
      (∀ p ∈ found, Q p) → (∀ p ∈ res.found, Q p) := by
  intro fuel
  induction fuel with
  | zero => intro found queue processed warns res h; exact absurd h (by simp [walkAux])
  | succ fuel ih =>
    intro found queue processed warns res h hfound
    cases queue with
    | nil =>
      have hres : res = ⟨found, processed, warns⟩ := by simpa [walkAux] using h.symm
      subst hres; exact hfound
    | cons cur rest =>
      cases hparse : fs.parseFile cur with
      | none =>
        rw [walkAux, hparse] at h
        exact ih _ _ _ _ _ h hfound
      | some tree =>
        rw [walkAux, hparse] at h
        dsimp only at h
        obtain ⟨extra, heq, -, hextra⟩ :=
          processDeps_spec fs (visitStmts fs (dirname cur) sf tree) found
        rw [heq] at h
        dsimp only at h
        refine ih _ _ _ _ _ h ?_
        intro p hp
        rcases List.mem_append.mp hp with hp | hp
        · exact hfound p hp
        · exact hdeps cur tree hparse p (hextra p hp).2

/-- Every processed file that fails to parse gets a warning. -/
theorem walkAux_parse_warn (fs : FS) (sf : AbsPath) :
    ∀ (fuel : Nat) (found queue processed warns : List AbsPath) (res : WalkResult),
      walkAux fs sf fuel found queue processed warns = some res →
      (∀ p ∈ processed, fs.parseFile p = none → p ∈ warns) →
      ∀ p ∈ res.processed, fs.parseFile p = none → p ∈ res.warnings := by
  intro fuel
  induction fuel with
  | zero => intro found queue processed warns res h; exact absurd h (by simp [walkAux])
  | succ fuel ih =>
    intro found queue processed warns res h hinv
    cases queue with
    | nil =>
      have hres : res = ⟨found, processed, warns⟩ := by simpa [walkAux] using h.symm
      subst hres; exact hinv
    | cons cur rest =>
      cases hparse : fs.parseFile cur with
      | none =>
        rw [walkAux, hparse] at h
        refine ih _ _ _ _ _ h ?_
        intro p hp hn
        rcases List.mem_append.mp hp with hp | hp
        · exact List.mem_append_left _ (hinv p hp hn)
        · exact List.mem_append_right _ hp
      | some tree =>
        rw [walkAux, hparse] at h
        dsimp only at h
        obtain ⟨extra, heq, -, -⟩ :=
          processDeps_spec fs (visitStmts fs (dirname cur) sf tree) found
        rw [heq] at h
        dsimp only at h
        refine ih _ _ _ _ _ h ?_
        intro p hp hn
        rcases List.mem_append.mp hp with hp | hp
        · exact hinv p hp hn
        · rw [List.mem_singleton.mp hp] at hn
          exact absurd (hparse ▸ hn) (by simp)

/-- Every processed file is a member of the final found set (it was in the
found set when it was enqueued). -/
theorem walkAux_processed_found (fs : FS) (sf : AbsPath) :
    ∀ (fuel : Nat) (found queue processed warns : List AbsPath) (res : WalkResult),
      walkAux fs sf fuel found queue processed warns = some res →
      (∀ p ∈ queue, p ∈ found) → (∀ p ∈ processed, p ∈ found) →
      ∀ p ∈ res.processed, p ∈ res.found := by
  intro fuel
  induction fuel with
  | zero => intro found queue processed warns res h; exact absurd h (by simp [walkAux])
  | succ fuel ih =>
    intro found queue processed warns res h hq hp
    cases queue with
    | nil =>
      have hres : res = ⟨found, processed, warns⟩ := by simpa [walkAux] using h.symm
      subst hres; exact hp
    | cons cur rest =>
      cases hparse : fs.parseFile cur with
      | none =>
        rw [walkAux, hparse] at h
        refine ih _ _ _ _ _ h (fun p hp1 => hq p (List.mem_cons_of_mem _ hp1)) ?_
        intro p hp1
        rcases List.mem_append.mp hp1 with hp1 | hp1
        · exact hp p hp1
        · exact List.mem_singleton.mp hp1 ▸ hq cur (List.mem_cons_self _ _)
      | some tree =>
        rw [walkAux, hparse] at h
        dsimp only at h
        obtain ⟨extra, heq, -, -⟩ :=
          processDeps_spec fs (visitStmts fs (dirname cur) sf tree) found
        rw [heq] at h
        dsimp only at h
        refine ih _ _ _ _ _ h ?_ ?_
        · intro p hp1
          rcases List.mem_append.mp hp1 with hp1 | hp1
          · exact List.mem_append_left _ (hq p (List.mem_cons_of_mem _ hp1))
          · exact List.mem_append_right _ (List.mem_of_mem_filter hp1)
        · intro p hp1
          rcases List.mem_append.mp hp1 with hp1 | hp1
          · exact List.mem_append_left _ (hp p hp1)
          · exact List.mem_append_left _
              (List.mem_singleton.mp hp1 ▸ hq cur (List.mem_cons_self _ _))

/-- Every regular file in the final found set was processed: enqueued
entries are all eventually popped and parsed. -/
theorem walkAux_isfile_processed (fs : FS) (sf : AbsPath) :
    ∀ (fuel : Nat) (found queue processed warns : List AbsPath) (res : WalkResult),
      walkAux fs sf fuel found queue processed warns = some res →
      (∀ p ∈ found, fs.isfile p = true → p ∈ processed ∨ p ∈ queue) →
      ∀ p ∈ res.found, fs.isfile p = true → p ∈ res.processed := by
  intro fuel
  induction fuel with
  | zero => intro found queue processed warns res h; exact absurd h (by simp [walkAux])
  | succ fuel ih =>
    intro found queue processed warns res h hinv
    cases queue with
    | nil =>
      have hres : res = ⟨found, processed, warns⟩ := by simpa [walkAux] using h.symm
      subst hres
      intro p hp hf
      rcases hinv p hp hf with hmem | hmem
      · exact hmem
      · exact absurd hmem (List.not_mem_nil p)
    | cons cur rest =>
      cases hparse : fs.parseFile cur with
      | none =>
        rw [walkAux, hparse] at h
        refine ih _ _ _ _ _ h ?_
        intro p hp hf
        rcases hinv p hp hf with hmem | hmem
        · exact Or.inl (List.mem_append_left _ hmem)
        · rcases List.mem_cons.mp hmem with hmem | hmem
          · exact Or.inl (List.mem_append_right _ (by simp [hmem]))
          · exact Or.inr hmem
      | some tree =>
        rw [walkAux, hparse] at h
        dsimp only at h
        obtain ⟨extra, heq, -, -⟩ :=
          processDeps_spec fs (visitStmts fs (dirname cur) sf tree) found
        rw [heq] at h
        dsimp only at h
        refine ih _ _ _ _ _ h ?_
        intro p hp hf
        rcases List.mem_append.mp hp with hp | hp
        · rcases hinv p hp hf with hmem | hmem
          · exact Or.inl (List.mem_append_left _ hmem)
          · rcases List.mem_cons.mp hmem with hmem | hmem
            · exact Or.inl (List.mem_append_right _ (by simp [hmem]))
            · exact Or.inr (List.mem_append_left _ hmem)
        · exact Or.inr (List.mem_append_right _ (List.mem_filter.mpr ⟨hp, hf⟩))

/-- Concatenation of duplicate-free, mutually fresh lists is duplicate
free. -/
theorem nodup_append_of {l1 l2 : List AbsPath} (h1 : l1.Nodup) (h2 : l2.Nodup)
    (h : ∀ p ∈ l1, p ∉ l2) : (l1 ++ l2).Nodup :=
  List.nodup_append.mpr ⟨h1, h2, fun _ ha hb => h _ ha hb⟩

/-- The processed list never repeats a path: the membership check against
the found set filters out everything already enqueued or processed. -/
theorem walkAux_nodup (fs : FS) (sf : AbsPath) :
    ∀ (fuel : Nat) (found queue processed warns : List AbsPath) (res : WalkResult),
      walkAux fs sf fuel found queue processed warns = some res →
      (queue ++ processed).Nodup →
      (∀ p ∈ queue, p ∈ found) → (∀ p ∈ processed, p ∈ found) →
      res.processed.Nodup := by
  intro fuel
  induction fuel with
  | zero => intro found queue processed warns res h; exact absurd h (by simp [walkAux])
  | succ fuel ih =>
    intro found queue processed warns res h hnd hq hp
    cases queue with
    | nil =>
      have hres : res = ⟨found, processed, warns⟩ := by simpa [walkAux] using h.symm
      subst hres
      simpa using hnd
    | cons cur rest =>
      have hnd' : (cur :: (rest ++ processed)).Nodup := by simpa using hnd
      have hcur_rest : cur ∉ rest := fun hc =>
        (List.nodup_cons.mp hnd').1 (List.mem_append_left _ hc)
      have hcur_proc : cur ∉ processed := fun hc =>
        (List.nodup_cons.mp hnd').1 (List.mem_append_right _ hc)
      have hrp : (rest ++ processed).Nodup := (List.nodup_cons.mp hnd').2
      have hrest_nd : rest.Nodup := (List.nodup_append.mp hrp).1
      have hproc_nd : processed.Nodup := (List.nodup_append.mp hrp).2.1
      have hdisj : ∀ p ∈ rest, p ∉ processed := fun p ha hb =>
        (List.nodup_append.mp hrp).2.2 ha hb
      cases hparse : fs.parseFile cur with
      | none =>
        rw [walkAux, hparse] at h
        refine ih _ _ _ _ _ h ?_ (fun p hp1 => hq p (List.mem_cons_of_mem _ hp1)) ?_
        · refine nodup_append_of hrest_nd (nodup_append_of hproc_nd (by simp) ?_) ?_
          · intro p hp1
            simp only [List.mem_singleton]
            intro hpe; subst hpe; exact hcur_proc hp1
          · intro p hp1 hp2
            rcases List.mem_append.mp hp2 with hp2 | hp2
            · exact hdisj p hp1 hp2
            · rw [List.mem_singleton.mp hp2] at hp1; exact hcur_rest hp1
        · intro p hp1
          rcases List.mem_append.mp hp1 with hp1 | hp1
          · exact hp p hp1
          · exact List.mem_singleton.mp hp1 ▸ hq cur (List.mem_cons_self _ _)
      | some tree =>
        rw [walkAux, hparse] at h
        dsimp only at h
        obtain ⟨extra, heq, hexnd, hexfresh⟩ :=
          processDeps_spec fs (visitStmts fs (dirname cur) sf tree) found
        rw [heq] at h
        dsimp only at h
        have hnewQ_nd : (extra.filter fs.isfile).Nodup := hexnd.filter _
        have hnewQ_fresh : ∀ p ∈ extra.filter fs.isfile, p ∉ found := fun p hp1 =>
          (hexfresh p (List.mem_of_mem_filter hp1)).1
        refine ih _ _ _ _ _ h ?_ ?_ ?_
        · refine nodup_append_of
            (nodup_append_of hrest_nd hnewQ_nd ?_)
            (nodup_append_of hproc_nd (by simp) ?_) ?_
          · intro p hp1 hp2
            exact hnewQ_fresh p hp2 (hq p (List.mem_cons_of_mem _ hp1))
          · intro p hp1
            simp only [List.mem_singleton]
            intro hpe; subst hpe; exact hcur_proc hp1
          · intro p hp1 hp2
            rcases List.mem_append.mp hp1 with hp1 | hp1
            · rcases List.mem_append.mp hp2 with hp2 | hp2
              · exact hdisj p hp1 hp2
              · rw [List.mem_singleton.mp hp2] at hp1; exact hcur_rest hp1
            · rcases List.mem_append.mp hp2 with hp2 | hp2
              · exact hnewQ_fresh p hp1 (hp p hp2)
              · exact hnewQ_fresh p hp1
                  (List.mem_singleton.mp hp2 ▸ hq cur (List.mem_cons_self _ _))
        · intro p hp1
          rcases List.mem_append.mp hp1 with hp1 | hp1
          · exact List.mem_append_left _ (hq p (List.mem_cons_of_mem _ hp1))
          · exact List.mem_append_right _ (List.mem_of_mem_filter hp1)
        · intro p hp1
          rcases List.mem_append.mp hp1 with hp1 | hp1
          · exact List.mem_append_left _ (hp p hp1)
          · exact List.mem_append_left _
              (List.mem_singleton.mp hp1 ▸ hq cur (List.mem_cons_self _ _))

/-- Termination of the worklist loop: when every regular file lies in the
finite list `allFiles`, fuel exceeding the queue length plus the number of
not-yet-found files suffices for the loop to drain its queue.  Each step
consumes one queue entry and enqueues only fresh regular files, which
strictly shrinks the not-yet-found count. -/
theorem walkAux_total (fs : FS) (sf : AbsPath) (allFiles : List AbsPath)
    (hfin : ∀ p, fs.isfile p = true → p ∈ allFiles) :
    ∀ (fuel : Nat) (found queue processed warns : List AbsPath),
      queue.length +
        (allFiles.dedup.filter (fun p => decide (p ∉ found))).length < fuel →
      (walkAux fs sf fuel found queue processed warns).isSome := by
  intro fuel
  induction fuel with
  | zero =>
    intro found queue processed warns hm
    exact absurd hm (Nat.not_lt_zero _)
  | succ fuel ih =>
    intro found queue processed warns hm
    cases queue with
    | nil => simp [walkAux]
    | cons cur rest =>
      cases hparse : fs.parseFile cur with
      | none =>
        rw [walkAux, hparse]
        apply ih
        simp only [List.length_cons] at hm
        omega
      | some tree =>
        rw [walkAux, hparse]
        dsimp only
        obtain ⟨extra, heq, hexnd, hexfresh⟩ :=
          processDeps_spec fs (visitStmts fs (dirname cur) sf tree) found
        rw [heq]
        dsimp only
        apply ih
        have hDnd : allFiles.dedup.Nodup := List.nodup_dedup _
        have hnq_nd : (extra.filter fs.isfile).Nodup := hexnd.filter _
        have hnq_sub_D : ∀ p ∈ extra.filter fs.isfile, p ∈ allFiles.dedup := by
          intro p hp
          exact List.mem_dedup.mpr (hfin p (List.mem_filter.mp hp).2)
        have hnq_fresh : ∀ p ∈ extra.filter fs.isfile, p ∉ found := fun p hp =>
          (hexfresh p (List.mem_of_mem_filter hp)).1
        have h1 : List.Sublist
            (allFiles.dedup.filter (fun p => decide (p ∉ found ++ extra)))
            (allFiles.dedup.filter
              (fun p => decide (p ∉ extra.filter fs.isfile) && decide (p ∉ found))) := by
          apply List.monotone_filter_right
          intro p hp
          have hp' : p ∉ found ++ extra := of_decide_eq_true hp
          have h2 : p ∉ extra.filter fs.isfile := fun hc =>
            hp' (List.mem_append_right _ (List.mem_of_mem_filter hc))
          have h3 : p ∉ found := fun hc => hp' (List.mem_append_left _ hc)
          simp [h2, h3]
        have h1len := h1.length_le
        have hG : allFiles.dedup.filter
              (fun p => decide (p ∉ extra.filter fs.isfile) && decide (p ∉ found)) =
            (allFiles.dedup.filter (fun p => decide (p ∉ found))).filter
              (fun p => decide (p ∉ extra.filter fs.isfile)) := by
          rw [List.filter_filter]
        have hFnd : (allFiles.dedup.filter (fun p => decide (p ∉ found))).Nodup :=
          hDnd.filter _
        have hpart := (List.filter_append_perm
          (fun p => decide (p ∈ extra.filter fs.isfile))
          (allFiles.dedup.filter (fun p => decide (p ∉ found)))).length_eq
        rw [List.length_append] at hpart
        have hnotq : (allFiles.dedup.filter (fun p => decide (p ∉ found))).filter
              (fun p => !(decide (p ∈ extra.filter fs.isfile))) =
            (allFiles.dedup.filter (fun p => decide (p ∉ found))).filter
              (fun p => decide (p ∉ extra.filter fs.isfile)) := by
          apply List.filter_congr
          intro p _
          simp [decide_not]
        have hsub : (extra.filter fs.isfile).toFinset ⊆
            ((allFiles.dedup.filter (fun p => decide (p ∉ found))).filter
              (fun p => decide (p ∈ extra.filter fs.isfile))).toFinset := by
          intro p hp
          rw [List.mem_toFinset] at hp
          rw [List.mem_toFinset]
          refine List.mem_filter.mpr ⟨?_, by simpa using hp⟩
          refine List.mem_filter.mpr ⟨hnq_sub_D p hp, by simp [hnq_fresh p hp]⟩
        have hcard : (extra.filter fs.isfile).length ≤
            ((allFiles.dedup.filter (fun p => decide (p ∉ found))).filter
              (fun p => decide (p ∈ extra.filter fs.isfile))).length := by
          have h5 := Finset.card_le_card hsub
          rwa [List.toFinset_card_of_nodup hnq_nd,
            List.toFinset_card_of_nodup (hFnd.filter _)] at h5
        rw [hG] at h1len
        rw [hnotq] at hpart
        simp only [List.length_append, List.length_cons] at hm ⊢
        omega

/-! ### The visitor as declaration collection plus resolution -/

/-- `visit_Import` resolves exactly the declarations `importDecls`. -/
theorem visit_Import_eq (fs : FS) (cfd sf : AbsPath) (names : List String) :
    visit_Import fs cfd sf names =
      (importDecls names).filterMap (fun d => resolve_import_path fs d.1 cfd sf d.2) := by
  simp only [visit_Import, importDecls, List.filterMap_map]
  rfl

/-- `visit_ImportFrom` resolves exactly the declarations
`importFromDecls`. -/
theorem visit_ImportFrom_eq (fs : FS) (cfd sf : AbsPath) (module : Option String)
    (names : List String) (level : Nat) :
    visit_ImportFrom fs cfd sf module names level =
      (importFromDecls module names level).filterMap
        (fun d => resolve_import_path fs d.1 cfd sf d.2) := by
  unfold visit_ImportFrom importFromDecls
  cases hb : (module.getD "" != "") <;>
    cases hres : resolve_import_path fs (module.getD "") cfd sf level <;>
      · simp only [hb, hres, List.filterMap_append, List.filterMap_map, if_true, if_false,
          Bool.false_eq_true, List.filterMap_nil, List.filterMap_cons, Option.toList,
          List.append_nil]
        try rfl
        try exact congrArg _ rfl

mutual

/-- One statement's visitor output resolves exactly its collected
declarations. -/
theorem visitStmt_eq_decls (fs : FS) (cfd sf : AbsPath) : (s : Stmt) →
    visitStmt fs cfd sf s =
      (stmtDecls s).filterMap (fun d => resolve_import_path fs d.1 cfd sf d.2)
  | Stmt.imp names => by
    rw [visitStmt, stmtDecls]
    exact visit_Import_eq fs cfd sf names
  | Stmt.impFrom m names level => by
    rw [visitStmt, stmtDecls]
    exact visit_ImportFrom_eq fs cfd sf m names level
  | Stmt.other body => by
    rw [visitStmt, stmtDecls]
    exact visitStmts_eq_decls fs cfd sf body

/-- A statement list's visitor output resolves exactly its collected
declarations. -/
theorem visitStmts_eq_decls (fs : FS) (cfd sf : AbsPath) : (l : List Stmt) →
    visitStmts fs cfd sf l =
      (stmtsDecls l).filterMap (fun d => resolve_import_path fs d.1 cfd sf d.2)
  | [] => by rw [visitStmts, stmtsDecls]; simp
  | s :: rest => by
    rw [visitStmts, stmtsDecls, List.filterMap_append,
      visitStmt_eq_decls fs cfd sf s, visitStmts_eq_decls fs cfd sf rest]

end

/-! ### The resolver against its specification -/

/-- The resolver agrees with the first-match formulation of the
specification. -/
theorem resolve_eq_spec (fs : FS) (m : String) (cfd sf : AbsPath) (level : Nat) :
    resolve_import_path fs m cfd sf level = resolveSpec fs m cfd sf level := by
  have hbase : (if level > 0 then iterDirname cfd (level - 1) else sf) =
      (if level = 0 then sf else iterDirname cfd (level - 1)) := by
    cases level <;> simp
  unfold resolve_import_path resolveSpec is_local_module
  dsimp only
  rw [hbase]
  cases h1 : fs.isfile (joinExt (if level = 0 then sf else iterDirname cfd (level - 1))
        (splitOnChar '.' m) ".py") &&
      (fs.real sf).isPrefixOf (fs.real (joinExt
        (if level = 0 then sf else iterDirname cfd (level - 1)) (splitOnChar '.' m) ".py")) <;>
    cases h2 : fs.isfile (joinAll (if level = 0 then sf else iterDirname cfd (level - 1))
          (splitOnChar '.' m ++ ["__init__.py"])) &&
        (fs.real sf).isPrefixOf (fs.real (joinAll
          (if level = 0 then sf else iterDirname cfd (level - 1))
          (splitOnChar '.' m ++ ["__init__.py"]))) <;>
      simp [List.find?, h1, h2]

/-- Anything the resolver returns has the canonical project root as a
component-wise prefix. -/
theorem resolve_underRoot (fs : FS) (m : String) (cfd sf : AbsPath) (level : Nat)
    (p : AbsPath) (h : resolve_import_path fs m cfd sf level = some p) :
    (fs.real sf).isPrefixOf p = true := by
  rw [resolve_eq_spec] at h
  unfold resolveSpec at h
  dsimp only at h
  obtain ⟨c, hc, hcp⟩ := Option.map_eq_some'.mp h
  have hpred := List.find?_some hc
  subst hcp
  have hpred' : fs.isfile c = true ∧ (fs.real sf).isPrefixOf (fs.real c) = true := by
    simpa using hpred
  exact hpred'.2

/-- Anything the visitor collects has the canonical project root as a
component-wise prefix. -/
theorem visitStmts_underRoot (fs : FS) (cfd sf : AbsPath) (l : List Stmt) (p : AbsPath)
    (hp : p ∈ visitStmts fs cfd sf l) : (fs.real sf).isPrefixOf p = true := by
  rw [visitStmts_eq_decls] at hp
  obtain ⟨d, -, hd⟩ := List.mem_filterMap.mp hp
  exact resolve_underRoot fs d.1 cfd sf d.2 p hd

/-! ### The output ordering -/

/-- Totality of code-point lexicographic comparison. -/
theorem charListLe_total : ∀ (a b : List Char), charListLe a b = true ∨ charListLe b a = true
  | [], _ => Or.inl rfl
  | _ :: _, [] => Or.inr rfl
  | a :: as, b :: bs => by
    unfold charListLe
    rcases Nat.lt_trichotomy a.toNat b.toNat with h | h | h
    · left; simp [h]
    · have h1 : ¬ a.toNat < b.toNat := by omega
      have h2 : ¬ b.toNat < a.toNat := by omega
      rcases charListLe_total as bs with ih | ih <;> simp [h, h1, h2, ih]
    · right; simp [h]

/-- Transitivity of code-point lexicographic comparison. -/
theorem charListLe_trans : ∀ (a b c : List Char),
    charListLe a b = true → charListLe b c = true → charListLe a c = true
  | [], _, _ => fun _ _ => rfl
  | _ :: _, [], _ => fun h _ => by simp [charListLe] at h
  | _ :: _, _ :: _, [] => fun _ h => by simp [charListLe] at h
  | a :: as, b :: bs, c :: cs => fun h1 h2 => by
    unfold charListLe at h1 h2 ⊢
    split_ifs at h1 h2 ⊢ <;>
      first
      | rfl
      | omega
      | exact charListLe_trans as bs cs h1 h2

/-- Antisymmetry of code-point lexicographic comparison. -/
theorem charListLe_antisymm : ∀ (a b : List Char),
    charListLe a b = true → charListLe b a = true → a = b
  | [], [] => fun _ _ => rfl
  | [], _ :: _ => fun _ h => by simp [charListLe] at h
  | _ :: _, [] => fun h _ => by simp [charListLe] at h
  | a :: as, b :: bs => fun h1 h2 => by
    unfold charListLe at h1 h2
    rcases Nat.lt_trichotomy a.toNat b.toNat with h | h | h
    · rw [if_neg (by omega), if_pos h] at h2
      exact absurd h2 (by simp)
    · have g1 : ¬ a.toNat < b.toNat := by omega
      have g2 : ¬ b.toNat < a.toNat := by omega
      rw [if_neg g1, if_neg g2] at h1
      rw [if_neg g2, if_neg g1] at h2
      have hab : a = b := Char.eq_of_val_eq (UInt32.toNat.inj h)
      rw [hab, charListLe_antisymm as bs h1 h2]
    · rw [if_neg (by omega), if_pos h] at h1
      exact absurd h1 (by simp)

/-- Totality of the Python string order. -/
theorem strLe_total (a b : String) : strLe a b = true ∨ strLe b a = true :=
  charListLe_total a.toList b.toList

/-- Transitivity of the Python string order. -/
theorem strLe_trans (a b c : String) (h1 : strLe a b = true) (h2 : strLe b c = true) :
    strLe a c = true :=
  charListLe_trans a.toList b.toList c.toList h1 h2

/-- Antisymmetry of the Python string order. -/
theorem strLe_antisymm (a b : String) (h1 : strLe a b = true) (h2 : strLe b a = true) :
    a = b := by
  have h := charListLe_antisymm a.toList b.toList h1 h2
  cases a; cases b
  exact congrArg String.mk h

/-- Totality of the output sort key order. -/
theorem sortKeyLe_total (init : List AbsPath) (x y : AbsPath) :
    sortKeyLe init x y = true ∨ sortKeyLe init y x = true := by
  unfold sortKeyLe
  cases hx : init.contains x <;> cases hy : init.contains y <;>
    rcases strLe_total (pathStr x) (pathStr y) with h | h <;> simp [h]

/-- Transitivity of the output sort key order. -/
theorem sortKeyLe_trans (init : List AbsPath) (x y z : AbsPath)
    (h1 : sortKeyLe init x y = true) (h2 : sortKeyLe init y z = true) :
    sortKeyLe init x z = true := by
  unfold sortKeyLe at h1 h2 ⊢
  revert h1 h2
  generalize init.contains x = cx
  generalize init.contains y = cy
  generalize init.contains z = cz
  cases cx <;> cases cy <;> cases cz <;> simp <;>
    (intro h1 h2; exact strLe_trans _ _ _ h1 h2)

/-- Keys comparing below each other have equal path strings and equal
entry-membership flags. -/
theorem sortKeyLe_antisymm (init : List AbsPath) (x y : AbsPath)
    (h1 : sortKeyLe init x y = true) (h2 : sortKeyLe init y x = true) :
    pathStr x = pathStr y := by
  unfold sortKeyLe at h1 h2
  revert h1 h2
  generalize init.contains x = cx
  generalize init.contains y = cy
  cases cx <;> cases cy <;> simp <;>
    (intro h1 h2; exact strLe_antisymm _ _ h1 h2)

/-- Two sorted lists that are permutations of one another coincide, given
antisymmetry of the order on the elements involved. -/
theorem sorted_perm_unique {r : AbsPath → AbsPath → Prop} :
    ∀ (l1 l2 : List AbsPath), List.Perm l1 l2 →
      l1.Pairwise r → l2.Pairwise r →
      (∀ x ∈ l1, ∀ y ∈ l1, r x y → r y x → x = y) → l1 = l2
  | [], l2, hperm, _, _, _ => (hperm.symm.eq_nil).symm
  | a :: t1, [], hperm, _, _, _ => absurd hperm.eq_nil (by simp)
  | a :: t1, b :: t2, hperm, hs1, hs2, hanti => by
    have hamem : a ∈ b :: t2 := hperm.subset (List.mem_cons_self _ _)
    have hbmem : b ∈ a :: t1 := hperm.symm.subset (List.mem_cons_self _ _)
    have hab : a = b := by
      rcases List.mem_cons.mp hamem with h | h
      · exact h
      · rcases List.mem_cons.mp hbmem with h' | h'
        · exact h'.symm
        · exact hanti a (List.mem_cons_self _ _) b (List.mem_cons_of_mem _ h')
            ((List.pairwise_cons.mp hs1).1 b h')
            ((List.pairwise_cons.mp hs2).1 a h)
    subst hab
    have htail := hperm.cons_inv
    have := sorted_perm_unique t1 t2 htail (List.pairwise_cons.mp hs1).2
      (List.pairwise_cons.mp hs2).2
      (fun x hx y hy => hanti x (List.mem_cons_of_mem _ hx) y (List.mem_cons_of_mem _ hy))
    rw [this]

/-! ### The emitter -/

/-- Concatenation of a list of strings (the successive writes of the
emitter). -/
def joinStrings : List String → String
  | [] => ""
  | s :: rest => s ++ joinStrings rest

/-- Splitting a concatenation of sections. -/
theorem joinStrings_append (l1 l2 : List String) :
    joinStrings (l1 ++ l2) = joinStrings l1 ++ joinStrings l2 := by
  induction l1 with
  | nil => simp [joinStrings]
  | cons s rest ih => simp [joinStrings, ih, String.append_assoc]

/-- The emitter's fold is the start banner followed by the concatenated
sections. -/
theorem create_foldl_eq (fs : FS) (search_folder : AbsPath) :
    ∀ (file_list : List AbsPath) (pre : String),
      file_list.foldl (fun out file_path => out ++ fileSection fs search_folder file_path) pre =
        pre ++ joinStrings (file_list.map (fileSection fs search_folder)) := by
  intro l
  induction l with
  | nil => intro pre; simp [joinStrings]
  | cons f rest ih =>
    intro pre
    rw [List.foldl_cons, ih, List.map_cons]
    show pre ++ fileSection fs search_folder f ++
        joinStrings (rest.map (fileSection fs search_folder)) = _
    rw [joinStrings, String.append_assoc]

/-! ### Concrete fixtures -/

/-- A project with two mutually importing files `r/a.py` and `r/b.py`
(`a.py` holds `import b`, `b.py` holds `import a`). -/
def fsCyc : FS where
  isfile := fun p => p = ["r", "a.py"] ∨ p = ["r", "b.py"]
  real := fun p => p
  parseFile := fun p =>
    if p = ["r", "a.py"] then some [Stmt.imp ["b"]]
    else if p = ["r", "b.py"] then some [Stmt.imp ["a"]]
    else none
  readFile := fun _ => Except.error ""

/-- A filesystem holding only the unparseable file `e.py`, which lies
outside the project root `r`. -/
def fsOut : FS where
  isfile := fun p => p = ["e.py"]
  real := fun p => p
  parseFile := fun _ => none
  readFile := fun _ => Except.error ""

/-- A project holding only the package marker `r/pkg/__init__.py`. -/
def fsC3 : FS where
  isfile := fun p => p = ["r", "pkg", "__init__.py"]
  real := fun p => p
  parseFile := fun _ => none
  readFile := fun _ => Except.error ""

/-! ### The claims -/

/-- C4: for every module name and relative level, the resolver computes
the base directory as the project root when the level is 0 and otherwise
as the current file's directory ascended level-minus-one times, then tries
the file candidate (segments joined plus `.py`) before the package
candidate (segments joined plus `__init__.py`), returns the first
candidate that is a regular file inside the project root, and returns
`none` (NotFound, not an error) when neither matches — stated as equality
with `resolveSpec`, the first-match form written to the words of the
specification. -/
theorem claim_C4_resolver_first_match (fs : FS) (module_name : String)
    (current_file_dir search_folder : AbsPath) (level : Nat) :
    resolve_import_path fs module_name current_file_dir search_folder level =
      resolveSpec fs module_name current_file_dir search_folder level :=
  resolve_eq_spec fs module_name current_file_dir search_folder level

/-- C3 counterexample: for the pure relative import `from . import x`
(empty base module) in file `r/pkg/mod.py`, the visitor resolves nothing,
although the base-module declaration the claim demands would resolve to
`r/pkg/__init__.py`; hence no declaration for the empty base module is
emitted. -/
theorem claim_C3_counterexample :
    visit_ImportFrom fsC3 ["r", "pkg"] ["r"] none ["x"] 1 = [] ∧
    (importFromDeclsClaimed none ["x"] 1).filterMap
        (fun d => resolve_import_path fsC3 d.1 ["r", "pkg"] ["r"] d.2) =
      [["r", "pkg", "__init__.py"]] ∧
    ([] : List AbsPath) ≠ [["r", "pkg", "__init__.py"]] :=
  ⟨by decide, by decide, by decide⟩

/-- C3 amended: for every from-import statement the parser emits one
declaration per imported name (the dotted base-plus-name when the base is
non-empty) and, only when the base module name is non-empty, one
additional declaration for the base module itself, all carrying the
statement's relative level; each declaration is passed to the resolver and
the resolved hits are collected in order. -/
theorem claim_C3_amended (fs : FS) (current_file_dir search_folder : AbsPath)
    (module : Option String) (names : List String) (level : Nat) :
    visit_ImportFrom fs current_file_dir search_folder module names level =
      (importFromDecls module names level).filterMap
        (fun d => resolve_import_path fs d.1 current_file_dir search_folder d.2) :=
  visit_ImportFrom_eq fs current_file_dir search_folder module names level

/-- Membership propagates from a member statement's visitor output to the
list's visitor output. -/
theorem mem_visitStmts_of_mem (fs : FS) (cfd sf : AbsPath) {s : Stmt} :
    ∀ {stmts : List Stmt}, s ∈ stmts → ∀ p ∈ visitStmt fs cfd sf s,
      p ∈ visitStmts fs cfd sf stmts := by
  intro stmts
  induction stmts with
  | nil => intro h; exact absurd h (List.not_mem_nil _)
  | cons t rest ih =>
    intro h p hp
    rw [visitStmts]
    rcases List.mem_cons.mp h with h | h
    · subst h; exact List.mem_append_left _ hp
    · exact List.mem_append_right _ (ih h p hp)

/-- C10: import statements at any nesting depth — inside function bodies,
class bodies, or conditional branches — are discovered: whatever a nested
statement's visit resolves is part of the whole file's collected
dependencies, because the visitor descends into every nested body. -/
theorem claim_C10_nested_discovered (fs : FS) (current_file_dir search_folder : AbsPath)
    (stmts : List Stmt) (s : Stmt) (h : NestedIn s stmts) :
    ∀ p ∈ visitStmt fs current_file_dir search_folder s,
      p ∈ visitStmts fs current_file_dir search_folder stmts := by
  induction h with
  | here hmem => exact fun p hp => mem_visitStmts_of_mem fs current_file_dir search_folder hmem p hp
  | deeper hnest hmem ih =>
    intro p hp
    exact mem_visitStmts_of_mem fs current_file_dir search_folder hmem p (ih p hp)

/-- C10 witness: `import b`, nested two statement levels deep inside
`r/a.py`, still contributes `r/b.py`. -/
theorem claim_C10_witness :
    ["r", "b.py"] ∈ visitStmts fsCyc ["r"] ["r"]
      [Stmt.other [Stmt.other [Stmt.imp ["b"]]]] :=
  claim_C10_nested_discovered fsCyc ["r"] ["r"]
    [Stmt.other [Stmt.other [Stmt.imp ["b"]]]] (Stmt.imp ["b"])
    (NestedIn.deeper
      (NestedIn.deeper (NestedIn.here (List.mem_cons_self _ _)) (List.mem_cons_self _ _))
      (List.mem_cons_self _ _))
    ["r", "b.py"] (by decide)

/-- C9: the canonicalized form of every entry script is in the set
returned by the dependency walk, unconditionally — the seeds are inserted
before any parsing or root-containment check. -/
theorem claim_C9_entries_unconditional (fs : FS) (start_scripts : List AbsPath)
    (search_folder : AbsPath) (fuel : Nat) (res : WalkResult)
    (h : find_all_dependencies fs start_scripts search_folder fuel = some res) :
    ∀ p ∈ start_scripts, fs.real p ∈ res.found := by
  intro p hp
  unfold find_all_dependencies at h
  exact (walkAux_mono fs search_folder fuel _ _ _ _ res h).1 _
    (List.mem_dedup.mpr (List.mem_map_of_mem _ hp))

/-- C9 witness: the entry `e.py` lies outside the root `r` and fails to
parse, yet its canonical form is in the returned set. -/
theorem claim_C9_witness :
    find_all_dependencies fsOut [["e.py"]] ["r"] 2 =
      some ⟨[["e.py"]], [["e.py"]], [["e.py"]]⟩ ∧
    fsOut.real ["e.py"] ∈ WalkResult.found ⟨[["e.py"]], [["e.py"]], [["e.py"]]⟩ :=
  ⟨by decide,
    claim_C9_entries_unconditional fsOut [["e.py"]] ["r"] 2
      ⟨[["e.py"]], [["e.py"]], [["e.py"]]⟩ (by decide) ["e.py"] (by decide)⟩

/-- C2 counterexample: the entry script `e.py` lies outside the project
root `r`, yet it is a member of the final dependency set, so not every
path in the final set lies inside the root. -/
theorem claim_C2_counterexample :
    Option.map WalkResult.found (find_all_dependencies fsOut [["e.py"]] ["r"] 2) =
      some [["e.py"]] ∧
    is_local_module fsOut ["e.py"] ["r"] = false :=
  ⟨by decide, by decide⟩

/-- C2 amended: every path in the final dependency set — and every
traversed path — is either a canonicalized entry script or lies inside the
project root under component-wise prefix comparison; resolver candidates
outside the root are never added and never traversed. -/
theorem claim_C2_amended (fs : FS) (start_scripts : List AbsPath) (search_folder : AbsPath)
    (fuel : Nat) (res : WalkResult)
    (h : find_all_dependencies fs start_scripts search_folder fuel = some res) :
    (∀ p ∈ res.found, p ∈ start_scripts.map fs.real ∨
      (fs.real search_folder).isPrefixOf p = true) ∧
    (∀ p ∈ res.processed, p ∈ start_scripts.map fs.real ∨
      (fs.real search_folder).isPrefixOf p = true) := by
  unfold find_all_dependencies at h
  have hfound := walkAux_found_pred fs search_folder
    (fun p => p ∈ start_scripts.map fs.real ∨ (fs.real search_folder).isPrefixOf p = true)
    (fun cur tree _ p hp =>
      Or.inr (visitStmts_underRoot fs (dirname cur) search_folder tree p hp))
    fuel _ _ _ _ res h (fun p hp => Or.inl (List.mem_dedup.mp hp))
  refine ⟨hfound, fun p hp => hfound p ?_⟩
  exact walkAux_processed_found fs search_folder fuel _ _ _ _ res h
    (fun q hq => hq) (fun q hq => absurd hq (List.not_mem_nil _)) p hp

/-- C2 witness: in the cycle project the discovered file `r/b.py` is not
an entry script, so it lies under the root. -/
theorem claim_C2_witness :
    ["r", "b.py"] ∈ [["r", "a.py"]].map fsCyc.real ∨
      (fsCyc.real ["r"]).isPrefixOf ["r", "b.py"] = true :=
  (claim_C2_amended fsCyc [["r", "a.py"]] ["r"] 4
    ⟨[["r", "a.py"], ["r", "b.py"]], [["r", "a.py"], ["r", "b.py"]], []⟩ (by decide)).1
    ["r", "b.py"] (by decide)

/-- C5: the processed list never repeats a path — each distinct
canonicalized path is enqueued at most once, so each distinct file is
parsed at most once. -/
theorem claim_C5_parsed_once (fs : FS) (start_scripts : List AbsPath)
    (search_folder : AbsPath) (fuel : Nat) (res : WalkResult)
    (h : find_all_dependencies fs start_scripts search_folder fuel = some res) :
    res.processed.Nodup := by
  unfold find_all_dependencies at h
  exact walkAux_nodup fs search_folder fuel _ _ _ _ res h
    (by simpa using List.nodup_dedup (start_scripts.map fs.real))
    (fun p hp => hp) (fun p hp => absurd hp (List.not_mem_nil _))

/-- C5 witness: with `r/a.py` listed twice among the entries and the
mutual cycle between `r/a.py` and `r/b.py`, each file is still parsed
exactly once. -/
theorem claim_C5_witness :
    find_all_dependencies fsCyc [["r", "a.py"], ["r", "b.py"], ["r", "a.py"]] ["r"] 4 =
      some ⟨[["r", "b.py"], ["r", "a.py"]], [["r", "b.py"], ["r", "a.py"]], []⟩ ∧
    (WalkResult.processed
      ⟨[["r", "b.py"], ["r", "a.py"]], [["r", "b.py"], ["r", "a.py"]], []⟩).Nodup :=
  ⟨by decide,
    claim_C5_parsed_once fsCyc [["r", "a.py"], ["r", "b.py"], ["r", "a.py"]] ["r"] 4
      ⟨[["r", "b.py"], ["r", "a.py"]], [["r", "b.py"], ["r", "a.py"]], []⟩ (by decide)⟩

/-- C7: every file that fails to parse during traversal gets a warning,
stays in the final found set (and hence the output), and the traversal
still completes: every regular file known to the found set is processed
regardless of failures elsewhere. -/
theorem claim_C7_parse_failure_recovery (fs : FS) (start_scripts : List AbsPath)
    (search_folder : AbsPath) (fuel : Nat) (res : WalkResult)
    (h : find_all_dependencies fs start_scripts search_folder fuel = some res) :
    (∀ p ∈ res.processed, fs.parseFile p = none →
      p ∈ res.warnings ∧ p ∈ res.found) ∧
    (∀ p ∈ res.found, fs.isfile p = true → p ∈ res.processed) := by
  unfold find_all_dependencies at h
  refine ⟨fun p hp hn => ⟨?_, ?_⟩, ?_⟩
  · exact walkAux_parse_warn fs search_folder fuel _ _ _ _ res h
      (fun q hq => absurd hq (List.not_mem_nil _)) p hp hn
  · exact walkAux_processed_found fs search_folder fuel _ _ _ _ res h
      (fun q hq => hq) (fun q hq => absurd hq (List.not_mem_nil _)) p hp
  · exact walkAux_isfile_processed fs search_folder fuel _ _ _ _ res h
      (fun q hq _ => Or.inr hq)

/-- C7 witness: the unparseable entry `e.py` is warned about and kept in
the found set. -/
theorem claim_C7_witness :
    ["e.py"] ∈ WalkResult.warnings ⟨[["e.py"]], [["e.py"]], [["e.py"]]⟩ ∧
    ["e.py"] ∈ WalkResult.found ⟨[["e.py"]], [["e.py"]], [["e.py"]]⟩ :=
  (claim_C7_parse_failure_recovery fsOut [["e.py"]] ["r"] 2
    ⟨[["e.py"]], [["e.py"]], [["e.py"]]⟩ (by decide)).1 ["e.py"] (by decide) rfl

/-- C6: the worklist traversal terminates for every filesystem whose
regular files form a finite list — fuel beyond the entry count plus the
file count always drains the queue — and on the concrete mutual-import
cycle between `r/a.py` and `r/b.py` the traversal terminates with each of
the two files appearing exactly once in the result. -/
theorem claim_C6_termination_and_cycle :
    (∀ (fs : FS) (search_folder : AbsPath) (start_scripts allFiles : List AbsPath)
        (fuel : Nat),
      (∀ p, fs.isfile p = true → p ∈ allFiles) →
      start_scripts.length + allFiles.length < fuel →
      (find_all_dependencies fs start_scripts search_folder fuel).isSome) ∧
    find_all_dependencies fsCyc [["r", "a.py"]] ["r"] 4 =
      some ⟨[["r", "a.py"], ["r", "b.py"]], [["r", "a.py"], ["r", "b.py"]], []⟩ ∧
    List.count ["r", "a.py"]
      (WalkResult.found
        ⟨[["r", "a.py"], ["r", "b.py"]], [["r", "a.py"], ["r", "b.py"]], []⟩) = 1 ∧
    List.count ["r", "b.py"]
      (WalkResult.found
        ⟨[["r", "a.py"], ["r", "b.py"]], [["r", "a.py"], ["r", "b.py"]], []⟩) = 1 := by
  refine ⟨?_, by decide, by decide, by decide⟩
  intro fs search_folder start_scripts allFiles fuel hfin hlt
  unfold find_all_dependencies
  apply walkAux_total fs search_folder allFiles hfin
  have h1 : (start_scripts.map fs.real).dedup.length ≤ start_scripts.length := by
    have := (List.dedup_sublist (start_scripts.map fs.real)).length_le
    simpa using this
  have h2 : (allFiles.dedup.filter
      (fun p => decide (p ∉ (start_scripts.map fs.real).dedup))).length ≤
        allFiles.length := by
    have ha := List.length_filter_le
      (fun p => decide (p ∉ (start_scripts.map fs.real).dedup)) allFiles.dedup
    have hb := (List.dedup_sublist allFiles).length_le
    omega
  omega

/-- C6 witness: applying the termination bound to the cycle project. -/
theorem claim_C6_witness :
    (find_all_dependencies fsCyc [["r", "a.py"]] ["r"] 4).isSome :=
  claim_C6_termination_and_cycle.1 fsCyc ["r"] [["r", "a.py"]]
    [["r", "a.py"], ["r", "b.py"]] 4
    (fun p hp => by
      have h : p = ["r", "a.py"] ∨ p = ["r", "b.py"] := by simpa [fsCyc] using hp
      rcases h with h | h <;> simp [h])
    (by decide)

/-- C1 counterexample: with entry scripts given on the command line in the
order `r/b.py`, `r/a.py` (and no further discovered files), the output
list is `[r/a.py, r/b.py]` — sorted by canonical path string — not the
argument order `[r/b.py, r/a.py]` the claim requires. -/
theorem claim_C1_counterexample :
    mainOutput fsCyc ["r"] [["r", "b.py"], ["r", "a.py"]] 5 =
      some [["r", "a.py"], ["r", "b.py"]] ∧
    some [["r", "a.py"], ["r", "b.py"]] ≠ some [["r", "b.py"], ["r", "a.py"]] :=
  ⟨by decide, by decide⟩

/-- C1 amended: the final output list is a permutation of the discovered
set, sorted with every entry script before every non-entry file and each
group in ascending canonical path string order — entry scripts are ordered
among themselves by canonical path string, not by argument order — and it
is determined by the discovered set alone, independently of the order in
which files were discovered during traversal. -/
theorem claim_C1_amended (init files files' : List AbsPath)
    (hperm : List.Perm files files')
    (hinj : ∀ x ∈ files, ∀ y ∈ files, pathStr x = pathStr y → x = y) :
    List.Perm (sortedDeps init files) files ∧
    (sortedDeps init files).Pairwise (sortRel init) ∧
    sortedDeps init files = sortedDeps init files' := by
  haveI : IsTotal AbsPath (sortRel init) := ⟨fun a b => sortKeyLe_total init a b⟩
  haveI : IsTrans AbsPath (sortRel init) := ⟨fun a b c => sortKeyLe_trans init a b c⟩
  refine ⟨List.perm_insertionSort _ _, List.sorted_insertionSort _ _, ?_⟩
  refine sorted_perm_unique _ _
    (((List.perm_insertionSort _ files).trans hperm).trans
      (List.perm_insertionSort _ files').symm)
    (List.sorted_insertionSort _ _) (List.sorted_insertionSort _ _) ?_
  intro x hx y hy hxy hyx
  exact hinj x ((List.perm_insertionSort _ files).subset hx)
    y ((List.perm_insertionSort _ files).subset hy)
    (sortKeyLe_antisymm init x y hxy hyx)

/-- C1 witness: the sorted output is the same whichever order the two
files were discovered in. -/
theorem claim_C1_witness :
    sortedDeps [["r", "a.py"]] [["r", "b.py"], ["r", "a.py"]] =
      sortedDeps [["r", "a.py"]] [["r", "a.py"], ["r", "b.py"]] :=
  (claim_C1_amended [["r", "a.py"]] [["r", "b.py"], ["r", "a.py"]]
    [["r", "a.py"], ["r", "b.py"]] (by decide) (by decide)).2.2

/-- C8: the emitter always produces the complete artifact — the start
banner, then one section per listed file in order (the 80-equals
delimiter, the `cat` relative-path label, the delimiter again, content and
blank separator) — and a file whose read fails gets the inline error
marker in its section while every following file's section is still
emitted. -/
theorem claim_C8_emitter_sections (fs : FS) (search_folder : AbsPath)
    (output_filename : String) (l1 l2 : List AbsPath) (p : AbsPath) (e : String)
    (h : fs.readFile p = Except.error e) :
    create_concatenated_file fs (l1 ++ p :: l2) search_folder output_filename =
      "--- START OF FILE " ++ output_filename ++ " ---\n\n" ++
        joinStrings (l1.map (fileSection fs search_folder)) ++
        (headerLine ++ "\ncat " ++ relpathStr p search_folder ++ "\n" ++ headerLine ++ "\n" ++
          ("!!! ERROR: Could not read file " ++ relpathStr p search_folder ++ ": " ++ e ++
            " !!!\n\n")) ++
        joinStrings (l2.map (fileSection fs search_folder)) := by
  unfold create_concatenated_file
  rw [create_foldl_eq, List.map_append, List.map_cons, joinStrings_append, joinStrings]
  have hsec : fileSection fs search_folder p =
      headerLine ++ "\ncat " ++ relpathStr p search_folder ++ "\n" ++ headerLine ++ "\n" ++
        ("!!! ERROR: Could not read file " ++ relpathStr p search_folder ++ ": " ++ e ++
          " !!!\n\n") := by
    unfold fileSection
    rw [h]
  rw [hsec]
  simp only [String.append_assoc]

/-- A project where reading `r/bad.py` fails with message `boom` and every
other file reads fine. -/
def fsRead : FS where
  isfile := fun _ => true
  real := fun p => p
  parseFile := fun _ => some []
  readFile := fun p => if p = ["r", "bad.py"] then Except.error ("boom") else Except.ok ("ok")

/-- C8 witness: the artifact for `good1.py`, the failing `bad.py`, and
`good2.py` carries the inline marker for `bad.py` and still carries the
section of `good2.py`. -/
theorem claim_C8_witness :
    create_concatenated_file fsRead
        ([["r", "good1.py"]] ++ ["r", "bad.py"] :: [["r", "good2.py"]]) ["r"] "out.txt" =
      "--- START OF FILE " ++ "out.txt" ++ " ---\n\n" ++
        joinStrings ([["r", "good1.py"]].map (fileSection fsRead ["r"])) ++
        (headerLine ++ "\ncat " ++ relpathStr ["r", "bad.py"] ["r"] ++ "\n" ++ headerLine ++
          "\n" ++
          ("!!! ERROR: Could not read file " ++ relpathStr ["r", "bad.py"] ["r"] ++ ": " ++
            "boom" ++ " !!!\n\n")) ++
        joinStrings ([["r", "good2.py"]].map (fileSection fsRead ["r"])) :=
  claim_C8_emitter_sections fsRead ["r"] "out.txt" [["r", "good1.py"]] [["r", "good2.py"]]
    ["r", "bad.py"] "boom" rfl
